import Mathlib

/-!
Shallow embedding of `WrappedStaticText.py` (class `WrappedStaticText`).

Strings are modelled as `List Char`.  The wx text-measurement primitive
(`wx.ScreenDC.GetMultiLineTextExtent`) is external to the repository; as in
the specification it is treated as an oracle: a `Measure` supplies a
single-line width and a single-line height, and the multi-line extent is the
width of the widest line together with the total height of all lines.
-/

namespace WrapText

/-- Strings of the program, as lists of characters. -/
abbrev Str := List Char

/-- `sys.maxsize` on a 64-bit CPython build. -/
def maxsize : Nat := 2 ^ 63 - 1

/-- The whitespace characters of Python's `str.split()` (ASCII range). -/
def isPyWs (c : Char) : Bool :=
  c = ' ' || c = '\n' || c = '\t' || c = '\r' || c = '\x0b' || c = '\x0c'

/-- Worker for `splitWs`: `cur` is the (reversed) word currently being read.
Mirrors Python's `str.split()` with no separator argument: splits on runs of
whitespace and never produces empty words. -/
def splitWsGo : Str → Str → List Str
  | [], cur => if cur.isEmpty then [] else [cur.reverse]
  | c :: rest, cur =>
    if isPyWs c then
      if cur.isEmpty then splitWsGo rest []
      else cur.reverse :: splitWsGo rest []
    else splitWsGo rest (c :: cur)

/-- `label.split()` of Python (no separator argument). -/
def splitWs (s : Str) : List Str := splitWsGo s []

/-- `s.split("\n")` of Python: split at every newline, keeping empty pieces. -/
def splitNl : Str → List Str
  | [] => [[]]
  | c :: r =>
    if c = '\n' then [] :: splitNl r
    else
      match splitNl r with
      | [] => [[c]]
      | l :: ls => (c :: l) :: ls

/-- The measurement oracle: single-line pixel width and height under the
current font.  Modelled from the spec: the text-measurement primitive is
external (wx), supplied by the platform, and treated as an oracle function. -/
structure Measure where
  w : Str → Nat
  h : Str → Nat

/-- Width of the widest line of `ls` under oracle `m`. -/
def lineMax (m : Measure) (ls : List Str) : Nat :=
  ls.foldl (fun a l => max a (m.w l)) 0

/-- Total height of the lines `ls` under oracle `m`. -/
def lineSum (m : Measure) (ls : List Str) : Nat :=
  ls.foldl (fun a l => a + m.h l) 0

/-- Modelled from the spec: `dc.GetMultiLineTextExtent(s)` (external wx
primitive) returns the width of the widest line and the total height of all
lines of `s`. -/
def multiExtent (m : Measure) (s : Str) : Nat × Nat :=
  (lineMax m (splitNl s), lineSum m (splitNl s))

/-- Width component of the multi-line extent. -/
def mW (m : Measure) (s : Str) : Nat := (multiExtent m s).1

/-- Height component of the multi-line extent. -/
def mH (m : Measure) (s : Str) : Nat := (multiExtent m s).2

/-- The ellipsis string `"…"`. -/
def ell : Str := ['…']

/-- `WrappedStaticText._GetWrappings(text, words)`: every combination of
`text` and the remaining `words`, concatenated with either `' '` or `'\n'`
at each boundary (space version yielded before newline version). -/
def getWrappings : Str → List Str → List Str
  | text, [] => [text]
  | text, [w] => [text ++ ' ' :: w, text ++ '\n' :: w]
  | text, w :: ws => getWrappings (text ++ ' ' :: w) ws ++ getWrappings (text ++ '\n' :: w) ws

/-- The mutable locals of the candidate-selection loop in `SetLabel`:
`best_height` / `best_label` for the wrapping search and
`best_unwrapped_height` / `best_unwrapped_width` / `best_unwrapped_label`
for the ellipsis fallback. -/
structure SelSt where
  bestHeight : Nat
  bestLabel : Option Str
  buHeight : Nat
  buWidth : Nat
  buLabel : Option Str
deriving DecidableEq

/-- Initial selection state (`sys.maxsize` sentinels, no labels). -/
def initSt : SelSt :=
  { bestHeight := maxsize, bestLabel := none,
    buHeight := maxsize, buWidth := maxsize, buLabel := none }

/-- One iteration of the `for l in labels:` loop of `SetLabel`.  Note that in
the strictly-smaller-height overflow branch the source assigns the width to
the misspelled variable `best_unwrapped_widtht`, a dead local, so
`best_unwrapped_width` is left unchanged there. -/
def selStep (m : Measure) (wrappedWidth : Int) (s : SelSt) (l : Str) : SelSt :=
  if (mW m l : Int) ≤ wrappedWidth then
    if mH m l < s.bestHeight then { s with bestLabel := some l, bestHeight := mH m l } else s
  else if mH m l = s.buHeight then
    if mW m l < s.buWidth then { s with buLabel := some l, buWidth := mW m l } else s
  else if mH m l < s.buHeight then
    { s with buLabel := some l, buHeight := mH m l }
  else s

/-- The `while best_unwrapped_width > self.wrappedWidth:` ellipsis loop of
`SetLabel`, with explicit fuel.  Each iteration drops the last character and
re-measures `label + "…"`.  The source has no other exit: `none` means that
the given number of iterations did not reach the bound (the concrete Python
loop would keep running). -/
def ellipsisFuel (m : Measure) (bound : Int) : Nat → Str → Nat → Option Str
  | 0, lbl, wdt =>
    if (wdt : Int) > bound then none else some (lbl ++ ell)
  | fuel + 1, lbl, wdt =>
    if (wdt : Int) > bound then
      ellipsisFuel m bound fuel lbl.dropLast (mW m (lbl.dropLast ++ ell))
    else some (lbl ++ ell)

/-- Outcome of one `SetLabel` call.  `wrapped` and `truncated` are the two
ways `super().SetLabel(best_label)` is reached; `indexError` is the
`label_split[0]` failure on a label with no words; `noneError` is the
`None`-valued fallback (`best_unwrapped_label[:-1]` or `None + "…"` on
`None`); `diverge` marks the ellipsis loop never reaching the bound. -/
inductive LayoutOutcome where
  | wrapped (s : Str)
  | truncated (s : Str)
  | indexError
  | noneError
  | diverge
deriving DecidableEq

/-- The tail of `SetLabel` after the selection loop: keep the best fitting
wrapping if one was found, otherwise run the ellipsis fallback on the
recorded best-overflow label.  The fuel `bu.length + 1` covers every
reachable iteration of the ellipsis loop: after `bu.length` drops the label
is empty and the loop state no longer changes, so `none` (`diverge`) means
the concrete loop never exits. -/
def selectOutcome (m : Measure) (wrappedWidth : Int) (st : SelSt) : LayoutOutcome :=
  match st.bestLabel with
  | some bl => .wrapped bl
  | none =>
    match st.buLabel with
    | none => .noneError
    | some bu =>
      match ellipsisFuel m wrappedWidth (bu.length + 1) bu st.buWidth with
      | some r => .truncated r
      | none => .diverge

/-- `WrappedStaticText.SetLabel(label)`: split the label into words, fold the
selection loop over every wrapping, and produce the resulting label. -/
def setLabel (m : Measure) (wrappedWidth : Int) (label : Str) : LayoutOutcome :=
  match splitWs label with
  | [] => .indexError
  | w0 :: ws =>
    selectOutcome m wrappedWidth
      ((getWrappings w0 ws).foldl (selStep m wrappedWidth) initSt)

/-- The fields of a `WrappedStaticText` instance (widget internals reduced to
the displayed label). -/
structure WSTState where
  center : Bool
  unwrappedLabel : Str
  wrappedWidth : Int
  maxRows : Option Nat
  font : Measure
  displayed : Str

/-- Effect of a `SetLabel` outcome on the widget: `super().SetLabel` is
reached only on the `wrapped` and `truncated` paths; an exception or a
diverging loop leaves the displayed label unchanged. -/
def applyOutcome (st : WSTState) : LayoutOutcome → WSTState
  | .wrapped s => { st with displayed := s }
  | .truncated s => { st with displayed := s }
  | _ => st

/-- `WrappedStaticText.SetLabel` as a state transformer.  Note that it reads
`self.wrappedWidth` and the font but never `self.maxRows`, and never writes
`self.unwrappedLabel`. -/
def setLabelW (st : WSTState) (label : Str) : WSTState :=
  applyOutcome st (setLabel st.font st.wrappedWidth label)

/-- `WrappedStaticText.SetFont(font)`: store the font, then re-wrap
`self.unwrappedLabel`. -/
def setFontW (st : WSTState) (f : Measure) : WSTState :=
  setLabelW { st with font := f } st.unwrappedLabel

/-- `WrappedStaticText.__init__`: store the constructor arguments, then
`SetFont(font)` (which re-wraps `unwrappedLabel`) and `SetLabel(label)`. -/
def mkWST (label : Str) (width : Int) (font : Measure) (maxRows : Option Nat)
    (center : Bool) : WSTState :=
  setLabelW
    (setFontW
      { center := center, unwrappedLabel := label, wrappedWidth := width,
        maxRows := maxRows, font := font, displayed := [] } font)
    label

/-- One break pattern: `false` joins the boundary with a space, `true` breaks
the line.  Follows the spec's BreakPattern data model. -/
def applyBreaks : Str → List Str → List Bool → Str
  | t, [], _ => t
  | t, _ :: _, [] => t
  | t, w :: ws, b :: bs => applyBreaks (t ++ (if b then '\n' else ' ') :: w) ws bs

/-- All break patterns over `n` boundaries, space branch (`false`) listed
before the newline branch (`true`) at each boundary. -/
def allPats : Nat → List (List Bool)
  | 0 => [[]]
  | n + 1 => (allPats n).map (false :: ·) ++ (allPats n).map (true :: ·)

/-- A candidate fits when its measured width is within the width bound
(`w <= self.wrappedWidth`). -/
def fitsW (m : Measure) (W : Int) (l : Str) : Prop := (mW m l : Int) ≤ W

instance (m : Measure) (W : Int) (l : Str) : Decidable (fitsW m W l) := by
  unfold fitsW; infer_instance

/-- A concrete measurement oracle for test instances: the width of a line is
its character count and every line is one unit high. -/
def charCount : Measure := ⟨fun l => l.length, fun _ => 1⟩

/-! ### Generic fold and max lemmas -/

theorem foldl_inv {α σ : Type _} (step : σ → α → σ) (P : List α → σ → Prop)
    (Q : α → Prop) (hstep : ∀ p s x, Q x → P p s → P (p ++ [x]) (step s x))
    (l : List α) : ∀ (p : List α) (s : σ), (∀ x ∈ l, Q x) → P p s →
      P (p ++ l) (l.foldl step s) := by
  induction l with
  | nil => intro p s _ hp; simpa using hp
  | cons x l ih =>
    intro p s hq hp
    have h2 := ih (p ++ [x]) (step s x)
      (fun y hy => hq y (List.mem_cons_of_mem _ hy))
      (hstep p s x (hq x (List.mem_cons_self _ _)) hp)
    simpa [List.append_assoc] using h2

theorem le_foldl_max (f : Str → Nat) :
    ∀ (ls : List Str) (a : Nat), a ≤ ls.foldl (fun b l => max b (f l)) a := by
  intro ls
  induction ls with
  | nil => intro a; simp
  | cons y ls ih =>
    intro a
    exact le_trans (le_max_left a (f y)) (ih (max a (f y)))

theorem mem_le_foldl_max (f : Str → Nat) :
    ∀ (ls : List Str) (a : Nat) (x : Str), x ∈ ls →
      f x ≤ ls.foldl (fun b l => max b (f l)) a := by
  intro ls
  induction ls with
  | nil => intro a x hx; simp at hx
  | cons y ls ih =>
    intro a x hx
    rcases List.mem_cons.mp hx with h | h
    · subst h
      exact le_trans (le_max_right a (f x)) (le_foldl_max f ls (max a (f x)))
    · exact ih (max a (f y)) x h

/-- Every line of `s` is at most the multi-line width of `s`. -/
theorem line_le_mW (m : Measure) (s : Str) (line : Str) (h : line ∈ splitNl s) :
    m.w line ≤ mW m s :=
  mem_le_foldl_max m.w (splitNl s) 0 line h

theorem splitNl_ne_nil (s : Str) : splitNl s ≠ [] := by
  induction s with
  | nil => simp [splitNl]
  | cons c r ih =>
    simp only [splitNl]
    split
    · simp
    · split <;> simp

theorem splitNl_cons_nl (r : Str) : splitNl ('\n' :: r) = [] :: splitNl r := by
  simp [splitNl]

theorem splitNl_cons_ne (a : Char) (ha : a ≠ '\n') (r : Str) :
    splitNl (a :: r) =
      match splitNl r with
      | [] => [[a]]
      | l :: ls => (a :: l) :: ls := by
  simp [splitNl, ha]

/-- Appending a non-newline character appends it to the last line. -/
theorem splitNl_append_char (c : Char) (hc : c ≠ '\n') (s : Str) :
    ∃ ls last, splitNl s = ls ++ [last] ∧
      splitNl (s ++ [c]) = ls ++ [last ++ [c]] := by
  induction s with
  | nil => exact ⟨[], [], by simp [splitNl], by simp [splitNl, hc]⟩
  | cons a r ih =>
    obtain ⟨ls, last, h1, h2⟩ := ih
    by_cases ha : a = '\n'
    · subst ha
      refine ⟨[] :: ls, last, ?_, ?_⟩
      · rw [splitNl_cons_nl, h1]; rfl
      · rw [List.cons_append, splitNl_cons_nl, h2]; rfl
    · cases ls with
      | nil =>
        refine ⟨[], a :: last, ?_, ?_⟩
        · rw [splitNl_cons_ne a ha, show splitNl r = [last] from by simpa using h1]
          rfl
        · rw [List.cons_append, splitNl_cons_ne a ha,
            show splitNl (r ++ [c]) = [last ++ [c]] from by simpa using h2]
          rfl
      | cons x xs =>
        refine ⟨(a :: x) :: xs, last, ?_, ?_⟩
        · rw [splitNl_cons_ne a ha, show splitNl r = x :: (xs ++ [last]) from by simpa using h1]
          rfl
        · rw [List.cons_append, splitNl_cons_ne a ha,
            show splitNl (r ++ [c]) = x :: (xs ++ [last ++ [c]]) from by simpa using h2]
          rfl

/-- Appending the ellipsis cannot shrink the multi-line width, provided the
per-line oracle widths are monotone under appending a character. -/
theorem mW_le_mW_append_ell (m : Measure)
    (hm : ∀ (l : Str) (c : Char), m.w l ≤ m.w (l ++ [c])) (s : Str) :
    mW m s ≤ mW m (s ++ ell) := by
  obtain ⟨ls, last, h1, h2⟩ := splitNl_append_char '…' (by decide) s
  show lineMax m (splitNl s) ≤ lineMax m (splitNl (s ++ ['…']))
  rw [h1, h2]
  unfold lineMax
  rw [List.foldl_append, List.foldl_append]
  simp only [List.foldl]
  exact max_le_max le_rfl (hm last '…')

/-! ### Lemmas about the candidate generator -/

theorem getWrappings_cons (t w : Str) (ws : List Str) :
    getWrappings t (w :: ws) =
      getWrappings (t ++ ' ' :: w) ws ++ getWrappings (t ++ '\n' :: w) ws := by
  cases ws with
  | nil => simp [getWrappings]
  | cons w2 ws2 => rfl

theorem getWrappings_eq_map (ws : List Str) : ∀ t,
    getWrappings t ws = (allPats ws.length).map (applyBreaks t ws) := by
  induction ws with
  | nil => intro t; simp [getWrappings, allPats, applyBreaks]
  | cons w ws ih =>
    intro t
    rw [getWrappings_cons, ih, ih]
    simp only [List.length_cons, allPats, List.map_append, List.map_map]
    have h1 : (allPats ws.length).map (applyBreaks t (w :: ws) ∘ (false :: ·))
        = (allPats ws.length).map (applyBreaks (t ++ ' ' :: w) ws) :=
      List.map_congr_left (fun p _ => by simp [Function.comp, applyBreaks])
    have h2 : (allPats ws.length).map (applyBreaks t (w :: ws) ∘ (true :: ·))
        = (allPats ws.length).map (applyBreaks (t ++ '\n' :: w) ws) :=
      List.map_congr_left (fun p _ => by simp [Function.comp, applyBreaks])
    rw [h1, h2]

theorem length_allPats : ∀ n, (allPats n).length = 2 ^ n := by
  intro n
  induction n with
  | zero => rfl
  | succ n ih =>
    simp only [allPats, List.length_append, List.length_map, ih, pow_succ]
    omega

theorem length_getWrappings (t : Str) (ws : List Str) :
    (getWrappings t ws).length = 2 ^ ws.length := by
  rw [getWrappings_eq_map, List.length_map, length_allPats]

theorem getWrappings_ne_nil (t : Str) (ws : List Str) :
    getWrappings t ws ≠ [] := by
  intro h
  have hl := length_getWrappings t ws
  rw [h] at hl
  exact absurd hl.symm (Nat.pos_iff_ne_zero.mp (pow_pos (by norm_num) _))

/-! ### Lemmas about whitespace splitting -/

/-- Every word produced by `splitWs` is non-empty and whitespace-free. -/
theorem splitWsGo_words (l : Str) : ∀ cur, (∀ c ∈ cur, isPyWs c = false) →
    ∀ w ∈ splitWsGo l cur, w ≠ [] ∧ ∀ c ∈ w, isPyWs c = false := by
  induction l with
  | nil =>
    intro cur hcur w hw
    by_cases h : cur.isEmpty
    · simp [splitWsGo, h] at hw
    · simp only [splitWsGo, if_neg h, List.mem_singleton] at hw
      subst hw
      refine ⟨?_, fun c hc => hcur c (List.mem_reverse.mp hc)⟩
      intro hrev
      exact h (by simp [List.isEmpty_iff, ← List.reverse_eq_nil_iff, hrev])
  | cons a l ih =>
    intro cur hcur w hw
    by_cases ha : isPyWs a
    · by_cases h : cur.isEmpty
      · rw [show splitWsGo (a :: l) cur = splitWsGo l [] from by
          simp [splitWsGo, ha, h]] at hw
        exact ih [] (by simp) w hw
      · rw [show splitWsGo (a :: l) cur = cur.reverse :: splitWsGo l [] from by
          simp [splitWsGo, ha, h]] at hw
        rcases List.mem_cons.mp hw with hw | hw
        · subst hw
          refine ⟨?_, fun c hc => hcur c (List.mem_reverse.mp hc)⟩
          intro hrev
          exact h (by simp [List.isEmpty_iff, ← List.reverse_eq_nil_iff, hrev])
        · exact ih [] (by simp) w hw
    · rw [show splitWsGo (a :: l) cur = splitWsGo l (a :: cur) from by
        simp [splitWsGo, ha]] at hw
      refine ih (a :: cur) ?_ w hw
      intro c hc
      rcases List.mem_cons.mp hc with hc | hc
      · subst hc; exact Bool.eq_false_iff.mpr ha
      · exact hcur c hc

/-- A non-empty whitespace-free word is read as a single token. -/
theorem splitWsGo_clean (w : Str) (hw : w ≠ [])
    (hclean : ∀ c ∈ w, isPyWs c = false) :
    ∀ cur, splitWsGo w cur = [cur.reverse ++ w] := by
  induction w with
  | nil => cases hw rfl
  | cons c w ih =>
    intro cur
    have hc : isPyWs c = false := hclean c (List.mem_cons_self _ _)
    by_cases hw2 : w = []
    · subst hw2
      simp [splitWsGo, hc]
    · rw [show splitWsGo (c :: w) cur = splitWsGo w (c :: cur) from by
        simp [splitWsGo, hc]]
      rw [ih hw2 (fun d hd => hclean d (List.mem_cons_of_mem _ hd)) (c :: cur)]
      simp

/-- A single clean word splits to itself. -/
theorem splitWs_clean (w : Str) (hw : w ≠ [])
    (hclean : ∀ c ∈ w, isPyWs c = false) : splitWs w = [w] := by
  unfold splitWs
  rw [splitWsGo_clean w hw hclean []]
  rfl

/-- Inserting a whitespace separator followed by a clean word appends
exactly that word to the split. -/
theorem splitWsGo_sep (s : Char) (hs : isPyWs s = true) (w : Str) (hw : w ≠ [])
    (hclean : ∀ c ∈ w, isPyWs c = false) :
    ∀ (t cur : Str), splitWsGo (t ++ s :: w) cur = splitWsGo t cur ++ [w] := by
  intro t
  induction t with
  | nil =>
    intro cur
    rw [List.nil_append,
      show splitWsGo (s :: w) cur =
        if cur.isEmpty then splitWsGo w [] else cur.reverse :: splitWsGo w [] from by
          simp [splitWsGo, hs],
      splitWsGo_clean w hw hclean []]
    by_cases hcur : cur.isEmpty <;> simp [splitWsGo, hcur]
  | cons a t ih =>
    intro cur
    by_cases ha : isPyWs a
    · by_cases hcur : cur.isEmpty
      · rw [List.cons_append,
          show splitWsGo (a :: (t ++ s :: w)) cur = splitWsGo (t ++ s :: w) [] from by
            simp [splitWsGo, ha, hcur],
          show splitWsGo (a :: t) cur = splitWsGo t [] from by
            simp [splitWsGo, ha, hcur]]
        exact ih []
      · rw [List.cons_append,
          show splitWsGo (a :: (t ++ s :: w)) cur
              = cur.reverse :: splitWsGo (t ++ s :: w) [] from by
            simp [splitWsGo, ha, hcur],
          show splitWsGo (a :: t) cur = cur.reverse :: splitWsGo t [] from by
            simp [splitWsGo, ha, hcur]]
        rw [ih []]
        rfl
    · rw [List.cons_append,
        show splitWsGo (a :: (t ++ s :: w)) cur = splitWsGo (t ++ s :: w) (a :: cur) from by
          simp [splitWsGo, ha],
        show splitWsGo (a :: t) cur = splitWsGo t (a :: cur) from by
          simp [splitWsGo, ha]]
      exact ih (a :: cur)

/-- Every candidate splits back to the original word sequence. -/
theorem splitWs_getWrappings (ws : List Str)
    (hws : ∀ w ∈ ws, w ≠ [] ∧ ∀ c ∈ w, isPyWs c = false) :
    ∀ (t : Str), ∀ l ∈ getWrappings t ws, splitWs l = splitWs t ++ ws := by
  induction ws with
  | nil =>
    intro t l hl
    rw [show getWrappings t [] = [t] from rfl, List.mem_singleton] at hl
    subst hl
    simp
  | cons w ws ih =>
    intro t l hl
    rw [getWrappings_cons] at hl
    have hw := hws w (List.mem_cons_self _ _)
    have hws2 : ∀ d ∈ ws, d ≠ [] ∧ ∀ c ∈ d, isPyWs c = false :=
      fun d hd => hws d (List.mem_cons_of_mem _ hd)
    rcases List.mem_append.mp hl with h | h
    · rw [ih hws2 _ l h]
      show splitWsGo (t ++ ' ' :: w) [] ++ ws = splitWsGo t [] ++ (w :: ws)
      rw [splitWsGo_sep ' ' (by decide) w hw.1 hw.2 t []]
      simp
    · rw [ih hws2 _ l h]
      show splitWsGo (t ++ '\n' :: w) [] ++ ws = splitWsGo t [] ++ (w :: ws)
      rw [splitWsGo_sep '\n' (by decide) w hw.1 hw.2 t []]
      simp

/-! ### Branch equations for the selection step -/

theorem selStep_fit_update (m : Measure) (W : Int) (s : SelSt) (l : Str)
    (h1 : fitsW m W l) (h2 : mH m l < s.bestHeight) :
    selStep m W s l = { s with bestLabel := some l, bestHeight := mH m l } := by
  unfold fitsW at h1
  unfold selStep
  rw [if_pos h1, if_pos h2]

theorem selStep_fit_keep (m : Measure) (W : Int) (s : SelSt) (l : Str)
    (h1 : fitsW m W l) (h2 : ¬ mH m l < s.bestHeight) :
    selStep m W s l = s := by
  unfold fitsW at h1
  unfold selStep
  rw [if_pos h1, if_neg h2]

theorem selStep_ovf_eq_lt (m : Measure) (W : Int) (s : SelSt) (l : Str)
    (h1 : ¬ fitsW m W l) (h2 : mH m l = s.buHeight) (h3 : mW m l < s.buWidth) :
    selStep m W s l = { s with buLabel := some l, buWidth := mW m l } := by
  unfold fitsW at h1
  unfold selStep
  rw [if_neg h1, if_pos h2, if_pos h3]

theorem selStep_ovf_eq_ge (m : Measure) (W : Int) (s : SelSt) (l : Str)
    (h1 : ¬ fitsW m W l) (h2 : mH m l = s.buHeight) (h3 : ¬ mW m l < s.buWidth) :
    selStep m W s l = s := by
  unfold fitsW at h1
  unfold selStep
  rw [if_neg h1, if_pos h2, if_neg h3]

theorem selStep_ovf_lt (m : Measure) (W : Int) (s : SelSt) (l : Str)
    (h1 : ¬ fitsW m W l) (h2 : ¬ mH m l = s.buHeight) (h3 : mH m l < s.buHeight) :
    selStep m W s l = { s with buLabel := some l, buHeight := mH m l } := by
  unfold fitsW at h1
  unfold selStep
  rw [if_neg h1, if_neg h2, if_pos h3]

theorem selStep_ovf_gt (m : Measure) (W : Int) (s : SelSt) (l : Str)
    (h1 : ¬ fitsW m W l) (h2 : ¬ mH m l = s.buHeight) (h3 : ¬ mH m l < s.buHeight) :
    selStep m W s l = s := by
  unfold fitsW at h1
  unfold selStep
  rw [if_neg h1, if_neg h2, if_neg h3]

/-- An overflow candidate never changes the best-fit fields. -/
theorem selStep_best_frame (m : Measure) (W : Int) (s : SelSt) (x : Str)
    (hf : ¬ fitsW m W x) :
    (selStep m W s x).bestLabel = s.bestLabel ∧
      (selStep m W s x).bestHeight = s.bestHeight := by
  by_cases he : mH m x = s.buHeight
  · by_cases hw : mW m x < s.buWidth
    · rw [selStep_ovf_eq_lt m W s x hf he hw]; exact ⟨rfl, rfl⟩
    · rw [selStep_ovf_eq_ge m W s x hf he hw]; exact ⟨rfl, rfl⟩
  · by_cases hlt : mH m x < s.buHeight
    · rw [selStep_ovf_lt m W s x hf he hlt]; exact ⟨rfl, rfl⟩
    · rw [selStep_ovf_gt m W s x hf he hlt]; exact ⟨rfl, rfl⟩

/-- A fitting candidate never changes the best-overflow fields. -/
theorem selStep_bu_frame (m : Measure) (W : Int) (s : SelSt) (x : Str)
    (hf : fitsW m W x) :
    (selStep m W s x).buLabel = s.buLabel ∧
      (selStep m W s x).buWidth = s.buWidth ∧
      (selStep m W s x).buHeight = s.buHeight := by
  by_cases hlt : mH m x < s.bestHeight
  · rw [selStep_fit_update m W s x hf hlt]; exact ⟨rfl, rfl, rfl⟩
  · rw [selStep_fit_keep m W s x hf hlt]; exact ⟨rfl, rfl, rfl⟩

/-! ### The best-fit invariant of the selection loop -/

/-- Running invariant of `best_label` / `best_height`: either no processed
candidate fits, or the recorded best is a fitting candidate of minimal
height, strictly better than every fitting candidate before it. -/
def InvBest (m : Measure) (W : Int) (p : List Str) (s : SelSt) : Prop :=
  (s.bestLabel = none ∧ s.bestHeight = maxsize ∧ ∀ d ∈ p, ¬ fitsW m W d)
  ∨ ∃ c pre post, s.bestLabel = some c ∧ s.bestHeight = mH m c
      ∧ p = pre ++ c :: post ∧ fitsW m W c
      ∧ (∀ d ∈ p, fitsW m W d → mH m c ≤ mH m d)
      ∧ (∀ d ∈ pre, fitsW m W d → mH m c < mH m d)

theorem invBest_step (m : Measure) (W : Int) :
    ∀ (p : List Str) (s : SelSt) (x : Str), mH m x < maxsize →
      InvBest m W p s → InvBest m W (p ++ [x]) (selStep m W s x) := by
  intro p s x hx h
  by_cases hf : fitsW m W x
  · by_cases hlt : mH m x < s.bestHeight
    · rw [selStep_fit_update m W s x hf hlt]
      right
      rcases h with ⟨_, hh, hall⟩ | ⟨c, pre, post, _, hh, hp, _, hmin, _⟩
      · refine ⟨x, p, [], rfl, rfl, by simp, hf, ?_, ?_⟩
        · intro d hd hdf
          rcases List.mem_append.mp hd with hd | hd
          · exact absurd hdf (hall d hd)
          · rw [List.mem_singleton.mp hd]
        · intro d hd hdf
          exact absurd hdf (hall d hd)
      · refine ⟨x, p, [], rfl, rfl, by simp, hf, ?_, ?_⟩
        · intro d hd hdf
          rcases List.mem_append.mp hd with hd | hd
          · exact le_of_lt (lt_of_lt_of_le (hh ▸ hlt) (hmin d hd hdf))
          · rw [List.mem_singleton.mp hd]
        · intro d hd hdf
          exact lt_of_lt_of_le (hh ▸ hlt) (hmin d hd hdf)
    · rw [selStep_fit_keep m W s x hf hlt]
      rcases h with ⟨_, hh, _⟩ | ⟨c, pre, post, hsome, hh, hp, hcf, hmin, hpre⟩
      · rw [hh] at hlt
        exact absurd hx hlt
      · right
        refine ⟨c, pre, post ++ [x], hsome, hh, by rw [hp]; simp, hcf, ?_, hpre⟩
        intro d hd hdf
        rcases List.mem_append.mp hd with hd | hd
        · exact hmin d hd hdf
        · have hle := Nat.le_of_not_lt hlt
          rw [hh] at hle
          rw [List.mem_singleton.mp hd]
          exact hle
  · have hfr := selStep_best_frame m W s x hf
    unfold InvBest
    rw [hfr.1, hfr.2]
    rcases h with ⟨hnone, hh, hall⟩ | ⟨c, pre, post, hsome, hh, hp, hcf, hmin, hpre⟩
    · left
      refine ⟨hnone, hh, ?_⟩
      intro d hd
      rcases List.mem_append.mp hd with hd | hd
      · exact hall d hd
      · rw [List.mem_singleton.mp hd]; exact hf
    · right
      refine ⟨c, pre, post ++ [x], hsome, hh, by rw [hp]; simp, hcf, ?_, hpre⟩
      intro d hd hdf
      rcases List.mem_append.mp hd with hd | hd
      · exact hmin d hd hdf
      · rw [List.mem_singleton.mp hd] at hdf
        exact absurd hdf hf

theorem invBest_fold (m : Measure) (W : Int) (cands : List Str)
    (hh : ∀ c ∈ cands, mH m c < maxsize) :
    InvBest m W cands (cands.foldl (selStep m W) initSt) := by
  have h0 : InvBest m W [] initSt := Or.inl ⟨rfl, rfl, by simp⟩
  have h := foldl_inv (selStep m W) (InvBest m W) (fun x => mH m x < maxsize)
    (invBest_step m W) cands [] initSt hh h0
  simpa using h

/-! ### The fit-witness invariant (no measurement hypotheses needed) -/

/-- The recorded best label, when present, is a fitting processed
candidate. -/
def InvFit (m : Measure) (W : Int) (p : List Str) (s : SelSt) : Prop :=
  s.bestLabel = none ∨ ∃ c, s.bestLabel = some c ∧ c ∈ p ∧ fitsW m W c

theorem invFit_step (m : Measure) (W : Int) :
    ∀ (p : List Str) (s : SelSt) (x : Str), True →
      InvFit m W p s → InvFit m W (p ++ [x]) (selStep m W s x) := by
  intro p s x _ h
  by_cases hf : fitsW m W x
  · by_cases hlt : mH m x < s.bestHeight
    · rw [selStep_fit_update m W s x hf hlt]
      exact Or.inr ⟨x, rfl, by simp, hf⟩
    · rw [selStep_fit_keep m W s x hf hlt]
      rcases h with h | ⟨c, h1, h2, h3⟩
      · exact Or.inl h
      · exact Or.inr ⟨c, h1, List.mem_append_left _ h2, h3⟩
  · have hfr := selStep_best_frame m W s x hf
    unfold InvFit
    rw [hfr.1]
    rcases h with h | ⟨c, h1, h2, h3⟩
    · exact Or.inl h
    · exact Or.inr ⟨c, h1, List.mem_append_left _ h2, h3⟩

theorem invFit_fold (m : Measure) (W : Int) (cands : List Str) :
    InvFit m W cands (cands.foldl (selStep m W) initSt) := by
  have h := foldl_inv (selStep m W) (InvFit m W) (fun _ => True)
    (invFit_step m W) cands [] initSt (fun _ _ => trivial) (Or.inl rfl)
  simpa using h

/-! ### The best-overflow invariant -/

/-- Running invariant of the `best_unwrapped_*` fields.  Because of the
misspelled assignment (`best_unwrapped_widtht`) the recorded width is only
guaranteed to be `maxsize` or the measured width of *some* overflow
candidate — not necessarily of the recorded label.  Height tracking is
consistent: the recorded label's measured height equals `buHeight`, which is
minimal among processed overflow candidates. -/
def InvBu (m : Measure) (W : Int) (p : List Str) (s : SelSt) : Prop :=
  (s.buLabel = none → s.buWidth = maxsize ∧ s.buHeight = maxsize)
  ∧ (∀ c, s.buLabel = some c → c ∈ p ∧ ¬ fitsW m W c ∧ s.buHeight = mH m c)
  ∧ (s.buWidth = maxsize ∨ ∃ d ∈ p, ¬ fitsW m W d ∧ s.buWidth = mW m d)
  ∧ (∀ d ∈ p, ¬ fitsW m W d → s.buHeight ≤ mH m d)
  ∧ ((∃ d ∈ p, ¬ fitsW m W d ∧ mH m d < maxsize) → ∃ c, s.buLabel = some c)

theorem invBu_step (m : Measure) (W : Int) :
    ∀ (p : List Str) (s : SelSt) (x : Str), True →
      InvBu m W p s → InvBu m W (p ++ [x]) (selStep m W s x) := by
  intro p s x _ h
  obtain ⟨h1, h2, h3, h4, h5⟩ := h
  by_cases hf : fitsW m W x
  · have hfr := selStep_bu_frame m W s x hf
    unfold InvBu
    rw [hfr.1, hfr.2.1, hfr.2.2]
    refine ⟨h1, ?_, ?_, ?_, ?_⟩
    · intro c hc
      have hcp := h2 c hc
      exact ⟨List.mem_append_left _ hcp.1, hcp.2⟩
    · rcases h3 with h3 | ⟨d, hd, hdf, hdw⟩
      · exact Or.inl h3
      · exact Or.inr ⟨d, List.mem_append_left _ hd, hdf, hdw⟩
    · intro d hd hdf
      rcases List.mem_append.mp hd with hd | hd
      · exact h4 d hd hdf
      · rw [List.mem_singleton.mp hd] at hdf
        exact absurd hf hdf
    · rintro ⟨d, hd, hdf, hdh⟩
      rcases List.mem_append.mp hd with hd | hd
      · exact h5 ⟨d, hd, hdf, hdh⟩
      · rw [List.mem_singleton.mp hd] at hdf
        exact absurd hf hdf
  · by_cases he : mH m x = s.buHeight
    · by_cases hw : mW m x < s.buWidth
      · rw [selStep_ovf_eq_lt m W s x hf he hw]
        refine ⟨?_, ?_, ?_, ?_, ?_⟩
        · intro hc; exact Option.noConfusion hc
        · intro c hc
          have hcx : x = c := by injection hc
          subst hcx
          exact ⟨List.mem_append_right _ (List.mem_singleton_self _), hf, he.symm⟩
        · exact Or.inr ⟨x, List.mem_append_right _ (List.mem_singleton_self _), hf, rfl⟩
        · intro d hd hdf
          rcases List.mem_append.mp hd with hd | hd
          · exact h4 d hd hdf
          · rw [List.mem_singleton.mp hd]
            exact le_of_eq he.symm
        · intro _
          exact ⟨x, rfl⟩
      · rw [selStep_ovf_eq_ge m W s x hf he hw]
        refine ⟨h1, ?_, ?_, ?_, ?_⟩
        · intro c hc
          have hcp := h2 c hc
          exact ⟨List.mem_append_left _ hcp.1, hcp.2⟩
        · rcases h3 with h3 | ⟨d, hd, hdf, hdw⟩
          · exact Or.inl h3
          · exact Or.inr ⟨d, List.mem_append_left _ hd, hdf, hdw⟩
        · intro d hd hdf
          rcases List.mem_append.mp hd with hd | hd
          · exact h4 d hd hdf
          · rw [List.mem_singleton.mp hd]
            exact le_of_eq he.symm
        · rintro ⟨d, hd, hdf, hdh⟩
          rcases List.mem_append.mp hd with hd | hd
          · exact h5 ⟨d, hd, hdf, hdh⟩
          · cases hsl : s.buLabel with
            | some c => exact ⟨c, rfl⟩
            | none =>
              have hmax := (h1 hsl).2
              rw [List.mem_singleton.mp hd] at hdh
              rw [hmax] at he
              rw [he] at hdh
              exact absurd hdh (lt_irrefl _)
    · by_cases hlt : mH m x < s.buHeight
      · rw [selStep_ovf_lt m W s x hf he hlt]
        refine ⟨?_, ?_, ?_, ?_, ?_⟩
        · intro hc; exact Option.noConfusion hc
        · intro c hc
          have hcx : x = c := by injection hc
          subst hcx
          exact ⟨List.mem_append_right _ (List.mem_singleton_self _), hf, rfl⟩
        · rcases h3 with h3 | ⟨d, hd, hdf, hdw⟩
          · exact Or.inl h3
          · exact Or.inr ⟨d, List.mem_append_left _ hd, hdf, hdw⟩
        · intro d hd hdf
          rcases List.mem_append.mp hd with hd | hd
          · exact le_trans (le_of_lt hlt) (h4 d hd hdf)
          · rw [List.mem_singleton.mp hd]
        · intro _
          exact ⟨x, rfl⟩
      · rw [selStep_ovf_gt m W s x hf he hlt]
        refine ⟨h1, ?_, ?_, ?_, ?_⟩
        · intro c hc
          have hcp := h2 c hc
          exact ⟨List.mem_append_left _ hcp.1, hcp.2⟩
        · rcases h3 with h3 | ⟨d, hd, hdf, hdw⟩
          · exact Or.inl h3
          · exact Or.inr ⟨d, List.mem_append_left _ hd, hdf, hdw⟩
        · intro d hd hdf
          rcases List.mem_append.mp hd with hd | hd
          · exact h4 d hd hdf
          · rw [List.mem_singleton.mp hd]
            exact Nat.le_of_not_lt hlt
        · rintro ⟨d, hd, hdf, hdh⟩
          rcases List.mem_append.mp hd with hd | hd
          · exact h5 ⟨d, hd, hdf, hdh⟩
          · cases hsl : s.buLabel with
            | some c => exact ⟨c, rfl⟩
            | none =>
              have hmax := (h1 hsl).2
              rw [List.mem_singleton.mp hd] at hdh
              rw [hmax] at hlt
              exact absurd hdh (by omega)

theorem invBu_fold (m : Measure) (W : Int) (cands : List Str) :
    InvBu m W cands (cands.foldl (selStep m W) initSt) := by
  have h0 : InvBu m W [] initSt := by
    refine ⟨fun _ => ⟨rfl, rfl⟩, ?_, Or.inl rfl, by simp, ?_⟩
    · intro c hc
      exact Option.noConfusion hc
    · rintro ⟨d, hd, _⟩
      exact absurd hd (List.not_mem_nil d)
  have h := foldl_inv (selStep m W) (InvBu m W) (fun _ => True)
    (invBu_step m W) cands [] initSt (fun _ _ => trivial) h0
  simpa using h

/-! ### Destructuring the outcome -/

theorem selectOutcome_wrapped (m : Measure) (W : Int) (st : SelSt) (bl : Str)
    (h : st.bestLabel = some bl) : selectOutcome m W st = .wrapped bl := by
  unfold selectOutcome
  rw [h]

theorem selectOutcome_noneError (m : Measure) (W : Int) (st : SelSt)
    (h1 : st.bestLabel = none) (h2 : st.buLabel = none) :
    selectOutcome m W st = .noneError := by
  unfold selectOutcome
  rw [h1, h2]

theorem selectOutcome_truncated (m : Measure) (W : Int) (st : SelSt)
    (bu r : Str) (h1 : st.bestLabel = none) (h2 : st.buLabel = some bu)
    (h3 : ellipsisFuel m W (bu.length + 1) bu st.buWidth = some r) :
    selectOutcome m W st = .truncated r := by
  unfold selectOutcome
  rw [h1, h2]
  show (match ellipsisFuel m W (bu.length + 1) bu st.buWidth with
      | some r => LayoutOutcome.truncated r
      | none => LayoutOutcome.diverge) = LayoutOutcome.truncated r
  rw [h3]

theorem selectOutcome_diverge (m : Measure) (W : Int) (st : SelSt) (bu : Str)
    (h1 : st.bestLabel = none) (h2 : st.buLabel = some bu)
    (h3 : ellipsisFuel m W (bu.length + 1) bu st.buWidth = none) :
    selectOutcome m W st = .diverge := by
  unfold selectOutcome
  rw [h1, h2]
  show (match ellipsisFuel m W (bu.length + 1) bu st.buWidth with
      | some r => LayoutOutcome.truncated r
      | none => LayoutOutcome.diverge) = LayoutOutcome.diverge
  rw [h3]

theorem selectOutcome_wrapped_inv (m : Measure) (W : Int) (st : SelSt) (c : Str)
    (h : selectOutcome m W st = .wrapped c) : st.bestLabel = some c := by
  cases hbl : st.bestLabel with
  | some bl =>
    rw [selectOutcome_wrapped m W st bl hbl] at h
    injection h with h2
    rw [h2]
  | none =>
    cases hbu : st.buLabel with
    | none =>
      rw [selectOutcome_noneError m W st hbl hbu] at h
      exact LayoutOutcome.noConfusion h
    | some bu =>
      cases hef : ellipsisFuel m W (bu.length + 1) bu st.buWidth with
      | none =>
        rw [selectOutcome_diverge m W st bu hbl hbu hef] at h
        exact LayoutOutcome.noConfusion h
      | some r =>
        rw [selectOutcome_truncated m W st bu r hbl hbu hef] at h
        exact LayoutOutcome.noConfusion h

theorem selectOutcome_truncated_inv (m : Measure) (W : Int) (st : SelSt)
    (r : Str) (h : selectOutcome m W st = .truncated r) :
    st.bestLabel = none ∧ ∃ bu, st.buLabel = some bu ∧
      ellipsisFuel m W (bu.length + 1) bu st.buWidth = some r := by
  cases hbl : st.bestLabel with
  | some bl =>
    rw [selectOutcome_wrapped m W st bl hbl] at h
    exact LayoutOutcome.noConfusion h
  | none =>
    refine ⟨rfl, ?_⟩
    cases hbu : st.buLabel with
    | none =>
      rw [selectOutcome_noneError m W st hbl hbu] at h
      exact LayoutOutcome.noConfusion h
    | some bu =>
      cases hef : ellipsisFuel m W (bu.length + 1) bu st.buWidth with
      | none =>
        rw [selectOutcome_diverge m W st bu hbl hbu hef] at h
        exact LayoutOutcome.noConfusion h
      | some r2 =>
        rw [selectOutcome_truncated m W st bu r2 hbl hbu hef] at h
        injection h with h2
        exact ⟨bu, rfl, by rw [hef, h2]⟩

theorem setLabel_nil (m : Measure) (W : Int) (label : Str)
    (h : splitWs label = []) : setLabel m W label = .indexError := by
  unfold setLabel
  rw [h]

theorem setLabel_cons (m : Measure) (W : Int) (label w0 : Str) (ws : List Str)
    (h : splitWs label = w0 :: ws) :
    setLabel m W label =
      selectOutcome m W ((getWrappings w0 ws).foldl (selStep m W) initSt) := by
  unfold setLabel
  rw [h]

/-! ### Behaviour of the ellipsis loop -/

/-- When the running width is already within the bound the loop exits at
once, appending the ellipsis. -/
theorem ellipsisFuel_exit (m : Measure) (bound : Int) (fuel : Nat) (lbl : Str)
    (wdt : Nat) (h : ¬ ((wdt : Int) > bound)) :
    ellipsisFuel m bound fuel lbl wdt = some (lbl ++ ell) := by
  cases fuel <;> simp [ellipsisFuel, h]

/-- Once the label is empty and even the bare ellipsis exceeds the bound, no
amount of fuel makes the loop exit: the concrete `while` loop runs forever. -/
theorem ellipsisFuel_stuck (m : Measure) (bound : Int)
    (hell : (mW m ([] ++ ell) : Int) > bound) :
    ∀ (fuel wdt : Nat), (wdt : Int) > bound →
      ellipsisFuel m bound fuel [] wdt = none := by
  intro fuel
  induction fuel with
  | zero =>
    intro wdt h
    simp [ellipsisFuel, h]
  | succ n ih =>
    intro wdt h
    simp only [ellipsisFuel, if_pos h, List.dropLast_nil]
    exact ih _ hell

/-- When the bare ellipsis fits the bound, `lbl.length + 1` rounds of fuel
always suffice: the loop terminates at the empty string at the latest. -/
theorem ellipsisFuel_total (m : Measure) (bound : Int)
    (hell : ¬ ((mW m ([] ++ ell) : Int) > bound)) :
    ∀ (lbl : Str) (wdt : Nat),
      ∃ r, ellipsisFuel m bound (lbl.length + 1) lbl wdt = some r := by
  suffices h : ∀ (n : Nat) (lbl : Str), lbl.length = n → ∀ wdt : Nat,
      ∃ r, ellipsisFuel m bound (lbl.length + 1) lbl wdt = some r by
    intro lbl wdt
    exact h lbl.length lbl rfl wdt
  intro n
  induction n with
  | zero =>
    intro lbl hl wdt
    have hnil : lbl = [] := List.length_eq_zero.mp hl
    subst hnil
    by_cases h : (wdt : Int) > bound
    · refine ⟨[] ++ ell, ?_⟩
      show ellipsisFuel m bound 1 [] wdt = some ([] ++ ell)
      simp only [ellipsisFuel, if_pos h, List.dropLast_nil]
      exact ellipsisFuel_exit m bound 0 [] _ hell
    · exact ⟨[] ++ ell, ellipsisFuel_exit m bound _ [] _ h⟩
  | succ n ih =>
    intro lbl hl wdt
    by_cases h : (wdt : Int) > bound
    · have hdl : lbl.dropLast.length = n := by
        rw [List.length_dropLast, hl]
        omega
      rw [hl]
      show ∃ r, ellipsisFuel m bound (n + 1 + 1) lbl wdt = some r
      simp only [ellipsisFuel, if_pos h]
      have := ih lbl.dropLast hdl (mW m (lbl.dropLast ++ ell))
      rw [hdl] at this
      exact this
    · exact ⟨lbl ++ ell, ellipsisFuel_exit m bound _ lbl _ h⟩

/-- Whenever the loop exits, every character it dropped was forced: the
result is `t ++ "…"` where `t ++ [c]` is an initial part of the input label
and measuring `t ++ [c] ++ "…"` still exceeds the bound.  The hypotheses
state the situation at loop entry: the running width exceeds the bound and
the input label with the ellipsis appended measures over the bound. -/
theorem ellipsisFuel_spec (m : Measure) (bound : Int) :
    ∀ (fuel : Nat) (lbl : Str) (wdt : Nat) (r : Str),
      ellipsisFuel m bound fuel lbl wdt = some r →
      (wdt : Int) > bound →
      (mW m (lbl ++ ell) : Int) > bound →
      ∃ t c tl, r = t ++ ell ∧ lbl = t ++ c :: tl ∧
        (mW m ((t ++ [c]) ++ ell) : Int) > bound := by
  intro fuel
  induction fuel with
  | zero =>
    intro lbl wdt r hr hw _
    simp [ellipsisFuel, hw] at hr
  | succ n ih =>
    intro lbl wdt r hr hw hent
    simp only [ellipsisFuel, if_pos hw] at hr
    rcases List.eq_nil_or_concat lbl with hnil | ⟨L, b, hLb⟩
    · subst hnil
      rw [List.dropLast_nil] at hr
      rw [ellipsisFuel_stuck m bound hent n _ hent] at hr
      exact Option.noConfusion hr
    · subst hLb
      simp only [List.concat_eq_append] at hr hent ⊢
      rw [List.dropLast_concat] at hr
      by_cases hw2 : (mW m (L ++ ell) : Int) > bound
      · obtain ⟨t, c, tl, h1, h2, h3⟩ := ih L _ r hr hw2 hw2
        refine ⟨t, c, tl ++ [b], h1, ?_, h3⟩
        rw [h2]
        simp
      · rw [ellipsisFuel_exit m bound n _ _ hw2] at hr
        injection hr with hr2
        exact ⟨L, b, [], hr2.symm, rfl, hent⟩

/-- Auxiliary: folding `max` of the constant `1` over a non-empty list. -/
theorem foldl_max_one : ∀ (ls : List Str) (a : Nat), ls ≠ [] →
    List.foldl (fun b (_ : Str) => max b 1) a ls = max a 1 := by
  intro ls
  induction ls with
  | nil => intro a h; cases h rfl
  | cons x ls ih =>
    intro a _
    by_cases h : ls = []
    · subst h; rfl
    · show List.foldl (fun b _ => max b 1) (max a 1) ls = max a 1
      rw [ih (max a 1) h, max_assoc]
      simp

/-- Under the constant-width oracle every string measures one unit wide. -/
theorem mW_one (s : Str) : mW ⟨fun _ => 1, fun _ => 1⟩ s = 1 := by
  show List.foldl (fun b (_ : Str) => max b 1) 0 (splitNl s) = 1
  rw [foldl_max_one (splitNl s) 0 (splitNl_ne_nil s)]
  simp

/-! ## The claims -/

/-- C1: for every non-empty label whose candidate set contains at least one
candidate within the width bound (heights below `sys.maxsize`), `SetLabel`
returns a wrapped result that is a candidate of minimal measured height
among all fitting candidates, and it is the first such candidate in
enumeration order: every earlier fitting candidate has strictly greater
height (strict less-than comparison, no replacement on ties). -/
theorem c1_minimal_rows (m : Measure) (W : Int) (label w0 : Str) (ws : List Str)
    (hsplit : splitWs label = w0 :: ws)
    (hh : ∀ c ∈ getWrappings w0 ws, mH m c < maxsize)
    (hfit : ∃ c ∈ getWrappings w0 ws, fitsW m W c) :
    ∃ c pre post,
      setLabel m W label = .wrapped c ∧
      getWrappings w0 ws = pre ++ c :: post ∧
      fitsW m W c ∧
      (∀ d ∈ getWrappings w0 ws, fitsW m W d → mH m c ≤ mH m d) ∧
      (∀ d ∈ pre, fitsW m W d → mH m c < mH m d) := by
  rcases invBest_fold m W (getWrappings w0 ws) hh with
    ⟨_, _, hall⟩ | ⟨c, pre, post, hsome, _, hp, hcf, hmin, hpre⟩
  · obtain ⟨c, hc, hcf⟩ := hfit
    exact absurd hcf (hall c hc)
  · refine ⟨c, pre, post, ?_, hp, hcf, hmin, hpre⟩
    rw [setLabel_cons m W label w0 ws hsplit,
      selectOutcome_wrapped m W _ c hsome]

/-- Witness for C1 at a concrete oracle and label. -/
theorem c1_minimal_rows_witness :
    ∃ c pre post,
      setLabel charCount 5 ['a', ' ', 'b'] = .wrapped c ∧
      getWrappings ['a'] [['b']] = pre ++ c :: post ∧
      fitsW charCount 5 c ∧
      (∀ d ∈ getWrappings ['a'] [['b']],
        fitsW charCount 5 d → mH charCount c ≤ mH charCount d) ∧
      (∀ d ∈ pre, fitsW charCount 5 d → mH charCount c < mH charCount d) :=
  c1_minimal_rows charCount 5 ['a', ' ', 'b'] ['a'] [['b']]
    (by decide) (by decide) (by decide)

/-- C2: whenever `SetLabel` produces a wrapped (non-truncated) result, every
line of that result measures within the width bound. -/
theorem c2_wrapped_lines_fit (m : Measure) (W : Int) (label c : Str)
    (hres : setLabel m W label = .wrapped c) :
    ∀ line ∈ splitNl c, (m.w line : Int) ≤ W := by
  cases hsplit : splitWs label with
  | nil =>
    rw [setLabel_nil m W label hsplit] at hres
    exact LayoutOutcome.noConfusion hres
  | cons w0 ws =>
    rw [setLabel_cons m W label w0 ws hsplit] at hres
    have hbl := selectOutcome_wrapped_inv m W _ c hres
    rcases invFit_fold m W (getWrappings w0 ws) with hnone | ⟨c2, hsome, _, hcf⟩
    · rw [hbl] at hnone
      exact Option.noConfusion hnone
    · rw [hbl] at hsome
      injection hsome with h2
      subst h2
      unfold fitsW at hcf
      intro line hline
      exact le_trans (Int.ofNat_le.mpr (line_le_mW m c line hline)) hcf

/-- Witness for C2 at a concrete oracle, label, and line. -/
theorem c2_wrapped_lines_fit_witness :
    (charCount.w ['a'] : Int) ≤ 5 :=
  c2_wrapped_lines_fit charCount 5 ['a'] ['a'] (by decide) ['a'] (by decide)

/-- C3: `max_rows` is stored by the constructor but never read by
`SetLabel`, so no candidate is ever skipped for exceeding it.  First
conjunct: the displayed result is independent of the stored `maxRows`.
Remaining conjuncts evaluate Scenario D (`maxRows = 1`, label `"a b c"`,
width fitting two one-character words per line): the widget displays the
two-row wrapped label `"a b\nc"` instead of a truncated result. -/
theorem c3_maxRows_never_enforced :
    (∀ (st : WSTState) (mr : Option Nat) (lbl : Str),
        (setLabelW { st with maxRows := mr } lbl).displayed
          = (setLabelW st lbl).displayed)
    ∧ (mkWST ['a', ' ', 'b', ' ', 'c'] 3 charCount (some 1) false).maxRows = some 1
    ∧ (mkWST ['a', ' ', 'b', ' ', 'c'] 3 charCount (some 1) false).displayed
        = ['a', ' ', 'b', '\n', 'c']
    ∧ (splitNl
        (mkWST ['a', ' ', 'b', ' ', 'c'] 3 charCount (some 1) false).displayed).length
        = 2 := by
  refine ⟨?_, by decide, by decide, by decide⟩
  intro st mr lbl
  show (applyOutcome { st with maxRows := mr }
        (setLabel st.font st.wrappedWidth lbl)).displayed
      = (applyOutcome st (setLabel st.font st.wrappedWidth lbl)).displayed
  cases setLabel st.font st.wrappedWidth lbl <;> rfl

/-- C4: the ellipsis `while` loop has no floor at the empty string: under an
oracle whose measured widths are all positive and a width bound of `0`, the
loop never exits, whatever the iteration budget (first conjunct), and the
layout call on the label `"ab"` reaches that non-terminating loop (second
conjunct). -/
theorem c4_ellipsis_loop_diverges :
    (∀ (fuel w : Nat) (lbl : Str),
        ellipsisFuel ⟨fun _ => 1, fun _ => 1⟩ 0 fuel lbl (w + 1) = none)
    ∧ setLabel ⟨fun _ => 1, fun _ => 1⟩ 0 ['a', 'b'] = .diverge := by
  constructor
  · intro fuel
    induction fuel with
    | zero =>
      intro w lbl
      have h : ((w + 1 : Nat) : Int) > 0 := by exact_mod_cast Nat.succ_pos w
      simp [ellipsisFuel, h]
    | succ n ih =>
      intro w lbl
      have h : ((w + 1 : Nat) : Int) > 0 := by exact_mod_cast Nat.succ_pos w
      simp only [ellipsisFuel, if_pos h]
      rw [mW_one]
      simpa using ih 0 lbl.dropLast
  · decide

/-- C5 counterexample: after processing the single overflow candidate `"aa"`
(measured width 2, bound 0), the recorded best-overflow label is `"aa"` but
the recorded best-overflow width is still `sys.maxsize`, not 2 — the claimed
invariant `bestOverflowWidth = measured width of bestOverflowCandidate`
fails, because the strictly-smaller-height branch assigns the width to the
misspelled variable `best_unwrapped_widtht`. -/
theorem c5_overflow_width_desync :
    (List.foldl (selStep charCount 0) initSt [['a', 'a']]).buLabel = some ['a', 'a']
    ∧ (List.foldl (selStep charCount 0) initSt [['a', 'a']]).buWidth = maxsize
    ∧ mW charCount ['a', 'a'] = 2
    ∧ maxsize ≠ 2 :=
  ⟨by decide, by decide, by decide, by decide⟩

/-- C5 amended: the recorded best-overflow label after any prefix is an
overflow candidate from the prefix whose measured height equals the recorded
height, minimal among overflow candidates of the prefix; the recorded width,
however, is only `sys.maxsize` or the measured width of some overflow
candidate of the prefix — not necessarily of the recorded label, since the
strictly-smaller-height branch leaves it unchanged. -/
theorem c5_overflow_tracking (m : Measure) (W : Int) (p : List Str) (c : Str)
    (hbu : (p.foldl (selStep m W) initSt).buLabel = some c) :
    c ∈ p ∧ ¬ fitsW m W c
    ∧ (p.foldl (selStep m W) initSt).buHeight = mH m c
    ∧ (∀ d ∈ p, ¬ fitsW m W d → mH m c ≤ mH m d)
    ∧ ((p.foldl (selStep m W) initSt).buWidth = maxsize
        ∨ ∃ d ∈ p, ¬ fitsW m W d
            ∧ (p.foldl (selStep m W) initSt).buWidth = mW m d) := by
  obtain ⟨h1, h2, h3, h4, h5⟩ := invBu_fold m W p
  have hc := h2 c hbu
  refine ⟨hc.1, hc.2.1, hc.2.2, ?_, h3⟩
  intro d hd hdf
  have h := h4 d hd hdf
  rw [hc.2.2] at h
  exact h

/-- Witness for the amended C5 at a concrete overflow stream. -/
theorem c5_overflow_tracking_witness :
    ['a', 'a'] ∈ [(['a', 'a'] : Str)] ∧ ¬ fitsW charCount 0 ['a', 'a']
    ∧ (List.foldl (selStep charCount 0) initSt [['a', 'a']]).buHeight
        = mH charCount ['a', 'a']
    ∧ (∀ d ∈ [(['a', 'a'] : Str)],
        ¬ fitsW charCount 0 d → mH charCount ['a', 'a'] ≤ mH charCount d)
    ∧ ((List.foldl (selStep charCount 0) initSt [['a', 'a']]).buWidth = maxsize
        ∨ ∃ d ∈ [(['a', 'a'] : Str)], ¬ fitsW charCount 0 d
            ∧ (List.foldl (selStep charCount 0) initSt [['a', 'a']]).buWidth
                = mW charCount d) :=
  c5_overflow_tracking charCount 0 [['a', 'a']] ['a', 'a'] (by decide)

/-- C6 counterexample: on the empty label `SetLabel` evaluates
`label_split[0]` on an empty list and raises `IndexError`; it does not
return a wrapped empty line. -/
theorem c6_empty_label_raises :
    setLabel charCount 5 [] = .indexError
    ∧ ∀ r, setLabel charCount 5 [] ≠ .wrapped r := by
  refine ⟨by decide, ?_⟩
  intro r h
  have h2 : setLabel charCount 5 [] = .indexError := by decide
  rw [h2] at h
  exact LayoutOutcome.noConfusion h

/-- C6 amended: the empty (or all-whitespace) label raises; any label with
at least one word is handled by the defined branches and produces a wrapped
or truncated result, provided measured heights stay below `sys.maxsize` and
the bare ellipsis fits the bound (so the fallback loop can terminate). -/
theorem c6_defined_fallbacks (m : Measure) (W : Int) (label w0 : Str)
    (ws : List Str) (hsplit : splitWs label = w0 :: ws)
    (hh : ∀ c ∈ getWrappings w0 ws, mH m c < maxsize)
    (hell : ¬ ((mW m ([] ++ ell) : Int) > W)) :
    ∃ r, setLabel m W label = .wrapped r ∨ setLabel m W label = .truncated r := by
  rw [setLabel_cons m W label w0 ws hsplit]
  cases hbl : ((getWrappings w0 ws).foldl (selStep m W) initSt).bestLabel with
  | some bl => exact ⟨bl, Or.inl (selectOutcome_wrapped m W _ bl hbl)⟩
  | none =>
    have hnofit : ∀ d ∈ getWrappings w0 ws, ¬ fitsW m W d := by
      rcases invBest_fold m W (getWrappings w0 ws) hh with
        ⟨_, _, hall⟩ | ⟨c, pre, post, hsome, _⟩
      · exact hall
      · rw [hbl] at hsome
        exact Option.noConfusion hsome
    obtain ⟨h1, h2, h3, h4, h5⟩ := invBu_fold m W (getWrappings w0 ws)
    obtain ⟨c0, hc0⟩ := List.exists_mem_of_ne_nil _ (getWrappings_ne_nil w0 ws)
    obtain ⟨bu, hbuEq⟩ := h5 ⟨c0, hc0, hnofit c0 hc0, hh c0 hc0⟩
    obtain ⟨r, hr⟩ := ellipsisFuel_total m W hell bu
      (((getWrappings w0 ws).foldl (selStep m W) initSt).buWidth)
    exact ⟨r, Or.inr (selectOutcome_truncated m W _ bu r hbl hbuEq hr)⟩

/-- Witness for the amended C6 at a concrete single-word label. -/
theorem c6_defined_fallbacks_witness :
    ∃ r, setLabel charCount 5 ['a'] = .wrapped r
      ∨ setLabel charCount 5 ['a'] = .truncated r :=
  c6_defined_fallbacks charCount 5 ['a'] ['a'] [] (by decide) (by decide) (by decide)

/-- C7: every truncated result is maximal.  The result is `t ++ "…"` where
`t ++ [ch]` is an initial part of the chosen overflow candidate (a candidate
of the original label), and re-adding that next character `ch` before the
ellipsis makes the measured width exceed the bound.  Hypotheses: per-line
widths are monotone under appending a character, and the width bound is
below `sys.maxsize`. -/
theorem c7_truncation_maximal (m : Measure) (W : Int) (label r : Str)
    (hmono : ∀ (l : Str) (ch : Char), m.w l ≤ m.w (l ++ [ch]))
    (hW : W < (maxsize : Int))
    (hres : setLabel m W label = .truncated r) :
    ∃ t ch tl w0 ws, r = t ++ ell
      ∧ splitWs label = w0 :: ws
      ∧ t ++ ch :: tl ∈ getWrappings w0 ws
      ∧ ¬ fitsW m W (t ++ ch :: tl)
      ∧ (mW m ((t ++ [ch]) ++ ell) : Int) > W := by
  cases hsplit : splitWs label with
  | nil =>
    rw [setLabel_nil m W label hsplit] at hres
    exact LayoutOutcome.noConfusion hres
  | cons w0 ws =>
    rw [setLabel_cons m W label w0 ws hsplit] at hres
    obtain ⟨hbl, bu, hbu, hef⟩ := selectOutcome_truncated_inv m W _ r hres
    obtain ⟨h1, h2, h3, h4, h5⟩ := invBu_fold m W (getWrappings w0 ws)
    have hbup := h2 bu hbu
    have hbuW :
        ((((getWrappings w0 ws).foldl (selStep m W) initSt)).buWidth : Int) > W := by
      rcases h3 with hmax | ⟨d, hd, hdf, hdw⟩
      · rw [hmax]; exact hW
      · rw [hdw]
        unfold fitsW at hdf
        exact not_le.mp hdf
    have hent : (mW m (bu ++ ell) : Int) > W := by
      have hgt : (mW m bu : Int) > W := by
        have hnf := hbup.2.1
        unfold fitsW at hnf
        exact not_le.mp hnf
      exact lt_of_lt_of_le hgt
        (Int.ofNat_le.mpr (mW_le_mW_append_ell m hmono bu))
    obtain ⟨t, ch, tl, hr1, hr2, hr3⟩ :=
      ellipsisFuel_spec m W _ bu _ r hef hbuW hent
    refine ⟨t, ch, tl, w0, ws, hr1, rfl, ?_, ?_, hr3⟩
    · rw [← hr2]; exact hbup.1
    · rw [← hr2]; exact hbup.2.1

/-- Witness for C7 at a concrete oracle, bound, and label. -/
theorem c7_truncation_maximal_witness :
    ∃ t ch tl w0 ws, (ell : Str) = t ++ ell
      ∧ splitWs ['a', 'b'] = w0 :: ws
      ∧ t ++ ch :: tl ∈ getWrappings w0 ws
      ∧ ¬ fitsW charCount 1 (t ++ ch :: tl)
      ∧ (mW charCount ((t ++ [ch]) ++ ell) : Int) > 1 :=
  c7_truncation_maximal charCount 1 ['a', 'b'] ell
    (fun l ch => by show l.length ≤ (l ++ [ch]).length; simp)
    (by decide) (by decide)

/-- C8: for `N` segments the generator yields exactly `2^(N-1)` candidates
(`ws` holds the `N-1` trailing segments), exactly one for `N = 1`, expanding
the space branch before the newline branch at each boundary; the candidate
list is exactly the break patterns, enumerated space-first, applied in
order. -/
theorem c8_generator_shape (t : Str) (ws : List Str) :
    (getWrappings t ws).length = 2 ^ ws.length
    ∧ getWrappings t [] = [t]
    ∧ (∀ (w : Str) (ws2 : List Str),
        getWrappings t (w :: ws2)
          = getWrappings (t ++ ' ' :: w) ws2 ++ getWrappings (t ++ '\n' :: w) ws2)
    ∧ getWrappings t ws = (allPats ws.length).map (applyBreaks t ws) :=
  ⟨length_getWrappings t ws, rfl, fun w ws2 => getWrappings_cons t w ws2,
    getWrappings_eq_map ws t⟩

/-- C9: splitting any candidate on whitespace reproduces the original
label's word sequence exactly, and consequently the same holds for any
wrapped result of `SetLabel`. -/
theorem c9_word_preservation (m : Measure) (W : Int) (label w0 : Str)
    (ws : List Str) (hsplit : splitWs label = w0 :: ws) :
    (∀ l ∈ getWrappings w0 ws, splitWs l = w0 :: ws)
    ∧ ∀ c, setLabel m W label = .wrapped c → splitWs c = w0 :: ws := by
  have hwords : ∀ w ∈ w0 :: ws, w ≠ [] ∧ ∀ ch ∈ w, isPyWs ch = false := by
    rw [← hsplit]
    exact fun w hw => splitWsGo_words label [] (by simp) w hw
  have hmain : ∀ l ∈ getWrappings w0 ws, splitWs l = w0 :: ws := by
    intro l hl
    have h0 := hwords w0 (List.mem_cons_self _ _)
    rw [splitWs_getWrappings ws (fun w hw => hwords w (List.mem_cons_of_mem _ hw))
        w0 l hl,
      splitWs_clean w0 h0.1 h0.2]
    rfl
  refine ⟨hmain, ?_⟩
  intro c hres
  rw [setLabel_cons m W label w0 ws hsplit] at hres
  have hbl := selectOutcome_wrapped_inv m W _ c hres
  rcases invFit_fold m W (getWrappings w0 ws) with hnone | ⟨c2, hsome, hmem, _⟩
  · rw [hbl] at hnone
    exact Option.noConfusion hnone
  · rw [hbl] at hsome
    injection hsome with h2
    subst h2
    exact hmain c hmem

/-- Witness for C9 at a concrete label. -/
theorem c9_word_preservation_witness :
    (∀ l ∈ getWrappings ['a'] [['b']], splitWs l = [['a'], ['b']])
    ∧ ∀ c, setLabel charCount 5 ['a', ' ', 'b'] = .wrapped c
        → splitWs c = [['a'], ['b']] :=
  c9_word_preservation charCount 5 ['a', ' ', 'b'] ['a'] [['b']] (by decide)

/-- C10: `SetLabel` never writes `unwrappedLabel` — after any sequence of
`SetLabel` calls the field still holds the constructor-time label — so a
subsequent `SetFont` re-wraps the constructor-time label, not the most
recently set one. -/
theorem c10_unwrapped_label_frame (label : Str) (width : Int) (font : Measure)
    (mr : Option Nat) (center : Bool) (labels : List Str) (f2 : Measure) :
    (labels.foldl setLabelW (mkWST label width font mr center)).unwrappedLabel = label
    ∧ setFontW (labels.foldl setLabelW (mkWST label width font mr center)) f2
      = setLabelW
          { labels.foldl setLabelW (mkWST label width font mr center) with font := f2 }
          label := by
  have hpres : ∀ (st : WSTState) (l : Str),
      (setLabelW st l).unwrappedLabel = st.unwrappedLabel := by
    intro st l
    show (applyOutcome st (setLabel st.font st.wrappedWidth l)).unwrappedLabel
        = st.unwrappedLabel
    cases setLabel st.font st.wrappedWidth l <;> rfl
  have hfold : ∀ (ls : List Str) (st : WSTState),
      (ls.foldl setLabelW st).unwrappedLabel = st.unwrappedLabel := by
    intro ls
    induction ls with
    | nil => intro st; rfl
    | cons x ls ih =>
      intro st
      rw [List.foldl_cons, ih, hpres]
  have hmk : (mkWST label width font mr center).unwrappedLabel = label := by
    unfold mkWST
    rw [hpres]
    unfold setFontW
    rw [hpres]
  constructor
  · rw [hfold, hmk]
  · unfold setFontW
    exact congrArg (setLabelW _) (by rw [hfold, hmk])

end WrapText
